import Mathlib

/-!
Verification of the redaction / restoration core of the repository
(`example-main.ts`): the PII pattern catalog, `redactText`, `unredactOnce`
and the streaming unredactor `makeStreamUnredactor`.

Strings are modelled as `List Char`; the three PII regular expressions and
the placeholder regular expression are compiled by hand into executable
matchers that follow JavaScript regex semantics (leftmost match, greedy
quantifiers with backtracking, `\b` word boundaries, lookaround).
-/

namespace CredalSpec

abbrev Str := List Char

/-- A `Record<string, string>` object, in insertion order. -/
abbrev Mapping := List (Str × Str)

/-- JavaScript `\w`, i.e. `[A-Za-z0-9_]`. -/
def isWordChar (c : Char) : Bool :=
  (('A' ≤ c) && (c ≤ 'Z')) || (('a' ≤ c) && (c ≤ 'z')) ||
  (('0' ≤ c) && (c ≤ '9')) || (c == '_')

/-- JavaScript `\d`, i.e. `[0-9]`. -/
def isDigitChar (c : Char) : Bool := ('0' ≤ c) && (c ≤ '9')

/-- The separator class `[ .-]` of the phone pattern. -/
def isSepChar (c : Char) : Bool := (c == ' ') || (c == '.') || (c == '-')

/-- The class `[A-Za-z]`. -/
def isAlphaChar (c : Char) : Bool :=
  (('A' ≤ c) && (c ≤ 'Z')) || (('a' ≤ c) && (c ≤ 'z'))

/-- The email local-part class `[A-Za-z0-9._%+-]`. -/
def isLocalChar (c : Char) : Bool :=
  isAlphaChar c || isDigitChar c || (c == '.') || (c == '_') ||
  (c == '%') || (c == '+') || (c == '-')

/-- The email domain class `[A-Za-z0-9.-]`. -/
def isDomainChar (c : Char) : Bool :=
  isAlphaChar c || isDigitChar c || (c == '.') || (c == '-')

/-- Does the next character (if any) count as a word character?  Used for the
trailing `\b` after a word character and for the `(?!\w)` lookahead. -/
def wordAhead (s : Str) : Bool :=
  match s with
  | [] => false
  | c :: _ => isWordChar c

/-- Longest prefix of characters satisfying `p`, together with the rest. -/
def takeWhileP (p : Char → Bool) : Str → Str × Str
  | [] => ([], [])
  | c :: cs =>
    if p c then
      let r := takeWhileP p cs
      (c :: r.1, r.2)
    else ([], c :: cs)

/-- Consume exactly `n` characters satisfying `p`. -/
def expectCount (p : Char → Bool) : Nat → Str → Option (Str × Str)
  | 0, s => some ([], s)
  | _ + 1, [] => none
  | n + 1, c :: cs =>
    if p c then (expectCount p n cs).map (fun r => (c :: r.1, r.2)) else none

/-- Consume the literal string `lit`; return the rest on success. -/
def expectLit : Str → Str → Option Str
  | [], s => some s
  | _ :: _, [] => none
  | c :: cs, d :: ds => if c == d then expectLit cs ds else none

/-- A matcher tries the pattern at the current position.  `prevWord` says
whether the character immediately before the position is a word character
(`false` at the start of the string); on success it returns the matched text
and the remainder of the string. -/
abbrev Matcher := Bool → Str → Option (Str × Str)

/-- Matcher for `SSN: /\b\d{3}-\d{2}-\d{4}\b/g`.  The first matched character is a digit,
so the leading `\b` requires a non-word character (or nothing) before the
match; the last matched character is a digit, so the trailing `\b` requires a
non-word character (or the end) after it. -/
def matchSSN : Matcher := fun prevWord s =>
  if prevWord then none
  else
    match expectCount isDigitChar 3 s with
    | none => none
    | some (a, s1) =>
      match s1 with
      | '-' :: s2 =>
        match expectCount isDigitChar 2 s2 with
        | none => none
        | some (b, s3) =>
          match s3 with
          | '-' :: s4 =>
            match expectCount isDigitChar 4 s4 with
            | none => none
            | some (c, s5) =>
              if wordAhead s5 then none
              else some (a ++ '-' :: b ++ '-' :: c, s5)
          | _ => none
      | _ => none

/-- The domain part `[A-Za-z0-9.-]+\.[A-Za-z]{2,}\b` of the email pattern,
tried at `s`.  `k` counts down over the lengths tried for the greedy
`[A-Za-z0-9.-]+` (longest first, as a backtracking JS engine does). -/
def emailDomainGo : Nat → Str → Option (Str × Str)
  | 0, _ => none
  | k + 1, s =>
    let attempt :=
      match s.drop (k + 1) with
      | '.' :: s3 =>
        let r := takeWhileP isAlphaChar s3
        -- `[A-Za-z]{2,}` is greedy and the trailing `\b` can only hold after
        -- the maximal run of letters, so only that run is tried.
        if decide (2 ≤ r.1.length) && !wordAhead r.2 then
          some (s.take (k + 1) ++ '.' :: r.1, r.2)
        else none
      | _ => none
    match attempt with
    | some r => some r
    | none => emailDomainGo k s

/-- Matcher for `[A-Za-z0-9.-]+\.[A-Za-z]{2,}\b` where every length up to the maximal run
of domain characters is a backtracking candidate. -/
def emailDomain (s : Str) : Option (Str × Str) :=
  emailDomainGo (takeWhileP isDomainChar s).1.length s

/-- Matcher for `EMAIL: /\b[A-Za-z0-9._%+-]+@[A-Za-z0-9.-]+\.[A-Za-z]{2,}\b/g`.
Since `@` is not in the local-part class, only the maximal run of local-part
characters can be followed by `@`, so the greedy `+` needs no backtracking. -/
def matchEMAIL : Matcher := fun prevWord s =>
  match s with
  | [] => none
  | c :: _ =>
    if !isLocalChar c then none
    else if prevWord == isWordChar c then none  -- leading \b fails
    else
      let loc := takeWhileP isLocalChar s
      match loc.2 with
      | '@' :: s2 =>
        match emailDomain s2 with
        | none => none
        | some (dom, rest) => some (loc.1 ++ '@' :: dom, rest)
      | _ => none

/-- Matcher for `\d{3}[ .-]?\d{4}(?!\w)`, the tail of the phone pattern.  The optional
separator is greedy: the with-separator branch is tried first. -/
def phoneTail2 (s : Str) : Option (Str × Str) :=
  match expectCount isDigitChar 3 s with
  | none => none
  | some (a, s1) =>
    let withSep :=
      match s1 with
      | c :: s2 =>
        if isSepChar c then
          match expectCount isDigitChar 4 s2 with
          | none => none
          | some (b, s3) => if wordAhead s3 then none else some (a ++ c :: b, s3)
        else none
      | [] => none
    match withSep with
    | some r => some r
    | none =>
      match expectCount isDigitChar 4 s1 with
      | none => none
      | some (b, s3) => if wordAhead s3 then none else some (a ++ b, s3)

/-- Matcher for `(?:\(\d{3}\)|\d{3})[ .-]?\d{3}[ .-]?\d{4}(?!\w)`: area code (the
parenthesised alternative first) then the tail.  When the parenthesised
branch succeeds the plain branch cannot (it would have to start at `(`),
so collapsing the alternation into first-success is faithful. -/
def phoneCore (s : Str) : Option (Str × Str) :=
  let area :=
    match s with
    | '(' :: s1 =>
      match expectCount isDigitChar 3 s1 with
      | some (d, ')' :: s2) => some ('(' :: d ++ [')'], s2)
      | _ => none
    | _ => none
  let area2 :=
    match area with
    | some r => some r
    | none => expectCount isDigitChar 3 s
  match area2 with
  | none => none
  | some (a, s1) =>
    let withSep :=
      match s1 with
      | c :: s2 =>
        if isSepChar c then (phoneTail2 s2).map (fun (r : Str × Str) => (a ++ c :: r.1, r.2))
        else none
      | [] => none
    match withSep with
    | some r => some r
    | none => (phoneTail2 s1).map (fun (r : Str × Str) => (a ++ r.1, r.2))

/-- Matcher for `\+\d{1,3}[ .-]?` followed by the core, with the greedy `\d{1,3}` trying
`n` digits, then `n-1`, ... then `1` (full depth-first backtracking). -/
def phoneCCDigits : Nat → Str → Option (Str × Str)
  | 0, _ => none
  | n + 1, s =>
    let attempt :=
      match expectCount isDigitChar (n + 1) s with
      | none => none
      | some (d, s2) =>
        let withSep :=
          match s2 with
          | c :: s3 =>
            if isSepChar c then (phoneCore s3).map (fun (r : Str × Str) => (d ++ c :: r.1, r.2))
            else none
          | [] => none
        match withSep with
        | some r => some r
        | none => (phoneCore s2).map (fun (r : Str × Str) => (d ++ r.1, r.2))
    match attempt with
    | some r => some r
    | none => phoneCCDigits n s

/-- Matcher for the pattern `PHONE_NUMBER:
`/(?<!\w)(?:\+\d{1,3}[ .-]?)?(?:\(\d{3}\)|\d{3})[ .-]?\d{3}[ .-]?\d{4}(?!\w)/g`.
The optional country-code group is greedy (present first); when it is absent
at a `+` the core fails anyway, so first-success is faithful. -/
def matchPHONE : Matcher := fun prevWord s =>
  if prevWord then none  -- (?<!\w)
  else
    let cc :=
      match s with
      | '+' :: s1 => (phoneCCDigits 3 s1).map (fun (r : Str × Str) => ('+' :: r.1, r.2))
      | _ => none
    match cc with
    | some r => some r
    | none => phoneCore s

/-- Matcher for `PLACEHOLDER_RE = /\b(?:SSN_\d{4}|EMAIL_\d{4}|PHONE_NUMBER_\d{4})\b/g`.
Every alternative starts with a letter and ends with a digit, so the leading
`\b` requires no word character before and the trailing `\b` none after. -/
def matchPlaceholder : Matcher := fun prevWord s =>
  if prevWord then none
  else
    let tryTok : Str → Option (Str × Str) := fun lab =>
      match expectLit lab s with
      | none => none
      | some s1 =>
        match expectCount isDigitChar 4 s1 with
        | none => none
        | some (d, s2) => if wordAhead s2 then none else some (lab ++ d, s2)
    match tryTok "SSN_".data with
    | some r => some r
    | none =>
      match tryTok "EMAIL_".data with
      | some r => some r
      | none => tryTok "PHONE_NUMBER_".data

/-- Word-character status of the character before the next scan position:
the last character of the match just consumed (fallback `p` is unused for
nonempty matches). -/
def lastCharWord (m : Str) (p : Bool) : Bool :=
  match m.getLast? with
  | some c => isWordChar c
  | none => p

/-- The scan loop shared by `matchAll` and `replace` with a `g` regex: try
the matcher at each position, collect matches, resume after each match.
`fuel` only bounds the recursion; every step consumes at least one
character, so `fuel = s.length` suffices. -/
def findAllAux (f : Matcher) : Nat → Bool → Str → List Str
  | 0, _, _ => []
  | _ + 1, _, [] => []
  | fuel + 1, p, c :: cs =>
    match f p (c :: cs) with
    | some (m, rest) => m :: findAllAux f fuel (lastCharWord m p) rest
    | none => findAllAux f fuel (isWordChar c) cs

/-- The list `Array.from(text.matchAll(re)).map(m => m[0])`. -/
def findAll (f : Matcher) (s : Str) : List Str := findAllAux f s.length false s

/-- One piece of the single-pass decomposition performed by
`text.replace(PLACEHOLDER_RE, ...)`: an unmatched literal character or a
complete placeholder-token match. -/
inductive PHPiece where
  | lit (c : Char)
  | tok (t : Str)
deriving DecidableEq

/-- Single left-to-right pass of `PLACEHOLDER_RE` over the text, exactly the
scan of `findAllAux` but keeping the unmatched characters. -/
def phPiecesAux : Nat → Bool → Str → List PHPiece
  | 0, _, _ => []
  | _ + 1, _, [] => []
  | fuel + 1, p, c :: cs =>
    match matchPlaceholder p (c :: cs) with
    | some (m, rest) => .tok m :: phPiecesAux fuel (lastCharWord m p) rest
    | none => .lit c :: phPiecesAux fuel (isWordChar c) cs

/-- Decomposition of a text into literal characters and placeholder tokens. -/
def phPieces (s : Str) : List PHPiece := phPiecesAux s.length false s

/-- First-match association-list lookup (JS object property read; keys of a
JS object are unique, so first-match is faithful). -/
def lookupMapping (m : Mapping) (k : Str) : Option Str :=
  match m with
  | [] => none
  | kv :: rest => if kv.1 == k then some kv.2 else lookupMapping rest k

/-- The replacement `(m) => mapping[m] ?? m` applied to one piece; literal
characters are copied unchanged and are never rescanned. -/
def renderPiece (m : Mapping) : PHPiece → Str
  | .lit c => [c]
  | .tok t => (lookupMapping m t).getD t

/-- The one-shot restorer `unredactOnce(text, mapping) = text.replace(PLACEHOLDER_RE,
(m) => mapping[m] ?? m)`. -/
def unredactOnce (text : Str) (m : Mapping) : Str :=
  ((phPieces text).map (renderPiece m)).flatten

/-- Core of `modified.split(match).join(placeholder)`: replace every leftmost
non-overlapping literal occurrence of `pat`.  Every step consumes at least
one character when `pat` is nonempty, so `fuel = s.length` suffices. -/
def replaceLitAux (pat rep : Str) : Nat → Str → Str
  | 0, s => s
  | _ + 1, [] => []
  | fuel + 1, c :: cs =>
    if pat.isPrefixOf (c :: cs) then
      rep ++ replaceLitAux pat rep fuel ((c :: cs).drop pat.length)
    else
      c :: replaceLitAux pat rep fuel cs

/-- Literal global substring replacement.  The patterns used by the code are
regex matches and hence nonempty; the empty-pattern guard only keeps the
recursion well behaved. -/
def replaceAllLit (s pat rep : Str) : Str :=
  if pat.isEmpty then s else replaceLitAux pat rep s.length s

/-- Decimal digit character. -/
def digitChar (n : Nat) : Char := Char.ofNat (48 + n)

/-- Decimal representation of a natural number (JS `n.toString()`), with a
fuel argument to keep the recursion structural. -/
def natToCharsAux : Nat → Nat → Str
  | 0, _ => []
  | fuel + 1, n =>
    if n < 10 then [digitChar n]
    else natToCharsAux fuel (n / 10) ++ [digitChar (n % 10)]

/-- JS `n.toString()` for a natural number. -/
def natToChars (n : Nat) : Str := natToCharsAux (n + 1) n

/-- The function `pad4(n) = n.toString().padStart(4, "0")`. -/
def pad4 (n : Nat) : Str :=
  let s := natToChars n
  List.replicate (4 - s.length) '0' ++ s

/-- The fixed, ordered label set of `PII_PATTERNS`. -/
inductive PIILabel where
  | SSN
  | EMAIL
  | PHONE_NUMBER
deriving DecidableEq

/-- The label text used to build placeholders. -/
def labelStr : PIILabel → Str
  | .SSN => "SSN".data
  | .EMAIL => "EMAIL".data
  | .PHONE_NUMBER => "PHONE_NUMBER".data

/-- The matcher of each label's regex. -/
def labelMatcher : PIILabel → Matcher
  | .SSN => matchSSN
  | .EMAIL => matchEMAIL
  | .PHONE_NUMBER => matchPHONE

/-- Catalog evaluation order: `Object.keys(PII_PATTERNS)` is insertion
order. -/
def piiLabels : List PIILabel := [.SSN, .EMAIL, .PHONE_NUMBER]

/-- The placeholder string `` `${label}_${pad4(counter)}` ``. -/
def mkPlaceholder (lab : PIILabel) (c : Nat) : Str :=
  labelStr lab ++ '_' :: pad4 c

/-- The test `Object.values(mapping).includes(match)`. -/
def mappingHasValue (m : Mapping) (v : Str) : Bool :=
  m.any (fun kv => kv.2 == v)

/-- The running state of `redactText`: the text buffer, the mapping and the
current label's counter. -/
structure RState where
  modified : Str
  mapping : Mapping
  counter : Nat
deriving DecidableEq

/-- The body of the inner `for (const match of matches)` loop. -/
def redactStep (lab : PIILabel) (st : RState) (mtch : Str) : RState :=
  if mappingHasValue st.mapping mtch then st
  else
    { modified := replaceAllLit st.modified mtch (mkPlaceholder lab st.counter),
      mapping := st.mapping ++ [(mkPlaceholder lab st.counter, mtch)],
      counter := st.counter + 1 }

/-- One label's pass: collect all matches of the label's regex over the
current buffer, then run the inner loop.  Each label's counter starts at
`1`. -/
def redactPass (lab : PIILabel) (acc : Str × Mapping) : Str × Mapping :=
  let st := (findAll (labelMatcher lab) acc.1).foldl (redactStep lab)
    ⟨acc.1, acc.2, 1⟩
  (st.modified, st.mapping)

/-- The result record of `redactText`. -/
structure RedactResult where
  redactedText : Str
  mapping : Mapping
deriving DecidableEq

/-- The mapper `redactText(text)`: the three catalog passes in declared order over one
running buffer, threading the shared mapping. -/
def redactText (text : Str) : RedactResult :=
  let acc := piiLabels.foldl (fun acc lab => redactPass lab acc) (text, [])
  ⟨acc.1, acc.2⟩

/-- The constant `MAX_PH_LEN = 17`, the length of `PHONE_NUMBER_0000`. -/
def MAX_PH_LEN : Nat := 17

/-- One call of the closure returned by `makeStreamUnredactor(mapping)`,
with the captured `buf` made explicit: append the incoming fragment, run
placeholder replacement over the whole buffer, then emit everything except
a trailing tail of `TAIL = MAX_PH_LEN - 1` characters (or nothing when the
processed buffer is at most `TAIL` long).  Returns (emitted, new buffer). -/
def streamStep (mapping : Mapping) (buf incoming : Str) : Str × Str :=
  let b := buf ++ incoming
  let p := unredactOnce b mapping
  if MAX_PH_LEN - 1 < p.length then
    (p.take (p.length - (MAX_PH_LEN - 1)), p.drop (p.length - (MAX_PH_LEN - 1)))
  else
    ([], p)

/-- Feed a list of fragments to a fresh streaming session; returns the
concatenation of all emitted outputs and the final retained buffer. -/
def runStream (mapping : Mapping) (frags : List Str) : Str × Str :=
  frags.foldl
    (fun acc frag =>
      let r := streamStep mapping acc.2 frag
      (acc.1 ++ r.1, r.2))
    ([], [])

/-- Does `pat` occur as a contiguous substring of `s`? -/
def occursIn (pat : Str) : Str → Bool
  | [] => pat.isEmpty
  | c :: cs => pat.isPrefixOf (c :: cs) || occursIn pat cs

/-- Number of (possibly overlapping) occurrences of a nonempty `pat`. -/
def countOccur (pat : Str) : Str → Nat
  | [] => 0
  | c :: cs =>
    (if pat.isPrefixOf (c :: cs) then 1 else 0) + countOccur pat cs

/-- Does the whole string `k` match the placeholder grammar
`LABEL_\d{4}` (a full-string match of `PLACEHOLDER_RE`)? -/
def keyMatchesGrammar (k : Str) : Bool :=
  match matchPlaceholder false k with
  | some (m, rest) => rest.isEmpty && m == k
  | none => false

/-- The mutable state a JS `g`-flagged regex object carries: its
`lastIndex` cursor. -/
structure RegexObj where
  lastIndex : Nat
deriving DecidableEq

/-- The clone `new RegExp(PII_PATTERNS[label], "g")`: a fresh regex object whose
`lastIndex` is `0`, whatever the state of the shared source object. -/
def cloneWithG (_ : RegexObj) : RegexObj := { lastIndex := 0 }

/-- Word-character status of the character before position `i` (for the
leading `\b` / lookbehind of a scan starting mid-string). -/
def prevWordAt (s : Str) (i : Nat) : Bool :=
  match i with
  | 0 => false
  | j + 1 =>
    match s.get? j with
    | some c => isWordChar c
    | none => false

/-- The `matchAll` semantics on a regex object: the scan starts at the object's
current `lastIndex`. -/
def findAllFrom (f : Matcher) (r : RegexObj) (s : Str) : List Str :=
  findAllAux f (s.drop r.lastIndex).length (prevWordAt s r.lastIndex)
    (s.drop r.lastIndex)

/-- One label's pass of `redactText` with the ambient state of the shared
`PII_PATTERNS[label]` object made explicit; the code clones it with
`new RegExp(..., "g")` before matching. -/
def redactPassFrom (lab : PIILabel) (r : RegexObj) (acc : Str × Mapping) :
    Str × Mapping :=
  let st := (findAllFrom (labelMatcher lab) (cloneWithG r) acc.1).foldl
    (redactStep lab) ⟨acc.1, acc.2, 1⟩
  (st.modified, st.mapping)

/-- The mapper `redactText` as a function of both the input text and the ambient
`lastIndex` states of the shared catalog regex objects. -/
def redactTextFromState (st : PIILabel → RegexObj) (text : Str) :
    RedactResult :=
  let acc := piiLabels.foldl (fun acc lab => redactPassFrom lab (st lab) acc)
    (text, [])
  ⟨acc.1, acc.2⟩

/-- Holds when `PLACEHOLDER_RE` has no match anywhere in `s` (the matcher
fails at every position, with the real word-boundary context). -/
def noPHAux : Nat → Bool → Str → Bool
  | 0, _, _ => true
  | _ + 1, _, [] => true
  | fuel + 1, p, c :: cs =>
    (matchPlaceholder p (c :: cs)).isNone && noPHAux fuel (isWordChar c) cs

/-- The text contains no substring matching the placeholder grammar. -/
def noPlaceholderMatch (s : Str) : Bool := noPHAux s.length false s

/-- Numeric value of a digit character. -/
def charVal (c : Char) : Nat := c.toNat - 48

/-- Decode a four-character digit string (inverse of `pad4` below 10000). -/
def num4 : Str → Nat
  | [a, b, c, d] =>
    ((charVal a * 10 + charVal b) * 10 + charVal c) * 10 + charVal d
  | _ => 0

/-- A distinct SSN-shaped value for each `i < 10000`. -/
def ssnVal (i : Nat) : Str := "000-00-".data ++ pad4 i

/-- Join a list of blocks with single spaces. -/
def joinSp : List Str → Str
  | [] => []
  | [b] => b
  | b :: c :: bs => b ++ ' ' :: joinSp (c :: bs)

/-- A text containing 10000 pairwise distinct SSN-shaped values. -/
def bigInput : Str := joinSp ((List.range 10000).map ssnVal)

/-- The mapping minted by the SSN pass after `n` distinct values. -/
def ssnMapUpTo (n : Nat) : Mapping :=
  (List.range n).map (fun j => (mkPlaceholder .SSN (j + 1), ssnVal j))

/-- Big-endian decimal decoder, the inverse of `natToChars`. -/
def decodeDec (s : Str) : Nat := s.foldl (fun acc c => acc * 10 + charVal c) 0

/-- Shape of every key `redactText` ever inserts into the mapping: a label of
the catalog followed by an underscore and `pad4` of a counter that started
at 1. -/
def KeyShapeProp (kv : Str × Str) : Prop :=
  ∃ (lab : PIILabel) (c : Nat), 1 ≤ c ∧ kv.1 = mkPlaceholder lab c

/-!  ### Helper lemmas about decimal rendering and `pad4`  -/

theorem charVal_digitChar {m : Nat} (hm : m < 10) : charVal (digitChar m) = m := by
  interval_cases m <;> decide

theorem isDigitChar_digitChar {m : Nat} (hm : m < 10) :
    isDigitChar (digitChar m) = true := by
  interval_cases m <;> decide

theorem natToCharsAux_fuel {f1 f2 n : Nat} (h1 : n < 10 ^ f1) (h2 : n < 10 ^ f2)
    (hp1 : 0 < f1) (hp2 : 0 < f2) :
    natToCharsAux f1 n = natToCharsAux f2 n := by
  induction f1 generalizing f2 n with
  | zero => omega
  | succ f ih =>
    obtain ⟨g, rfl⟩ : ∃ g, f2 = g + 1 := ⟨f2 - 1, by omega⟩
    by_cases hn : n < 10
    · simp [natToCharsAux, hn]
    · have hf : 0 < f := by
        rcases Nat.eq_zero_or_pos f with hf0 | hf0
        · subst hf0; simp at h1; omega
        · exact hf0
      have hg : 0 < g := by
        rcases Nat.eq_zero_or_pos g with hg0 | hg0
        · subst hg0; simp at h2; omega
        · exact hg0
      have hd1 : n / 10 < 10 ^ f := by
        rw [Nat.div_lt_iff_lt_mul (by norm_num : (0:Nat) < 10)]
        calc n < 10 ^ (f + 1) := h1
        _ = 10 ^ f * 10 := pow_succ 10 f
      have hd2 : n / 10 < 10 ^ g := by
        rw [Nat.div_lt_iff_lt_mul (by norm_num : (0:Nat) < 10)]
        calc n < 10 ^ (g + 1) := h2
        _ = 10 ^ g * 10 := pow_succ 10 g
      simp only [natToCharsAux, hn, if_false]
      rw [ih hd1 hd2 hf hg]

theorem natToCharsAux_length {f n : Nat} (h : n < 10 ^ f) (hp : 0 < f) :
    (natToCharsAux f n).length ≤ f := by
  induction f generalizing n with
  | zero => omega
  | succ f ih =>
    by_cases hn : n < 10
    · simp [natToCharsAux, hn]
    · have hf : 0 < f := by
        rcases Nat.eq_zero_or_pos f with hf0 | hf0
        · subst hf0; simp at h; omega
        · exact hf0
      have hd : n / 10 < 10 ^ f := by
        rw [Nat.div_lt_iff_lt_mul (by norm_num : (0:Nat) < 10)]
        calc n < 10 ^ (f + 1) := h
        _ = 10 ^ f * 10 := pow_succ 10 f
      have := ih hd hf
      simp only [natToCharsAux, hn, if_false, List.length_append, List.length_cons,
        List.length_nil]
      omega

theorem natToCharsAux_digits {f n : Nat} :
    (natToCharsAux f n).all isDigitChar = true := by
  induction f generalizing n with
  | zero => simp [natToCharsAux]
  | succ f ih =>
    by_cases hn : n < 10
    · simp [natToCharsAux, hn, isDigitChar_digitChar hn]
    · have : n % 10 < 10 := Nat.mod_lt _ (by omega)
      simp [natToCharsAux, hn, List.all_append, ih, isDigitChar_digitChar this]

theorem decodeDec_append_one (xs : Str) (d : Char) :
    decodeDec (xs ++ [d]) = decodeDec xs * 10 + charVal d := by
  simp [decodeDec, List.foldl_append]

theorem decodeDec_natToCharsAux {f n : Nat} (h : n < 10 ^ f) (hp : 0 < f) :
    decodeDec (natToCharsAux f n) = n := by
  induction f generalizing n with
  | zero => omega
  | succ f ih =>
    by_cases hn : n < 10
    · simp [natToCharsAux, hn, decodeDec, charVal_digitChar hn]
    · have hf : 0 < f := by
        rcases Nat.eq_zero_or_pos f with hf0 | hf0
        · subst hf0; simp at h; omega
        · exact hf0
      have hd : n / 10 < 10 ^ f := by
        rw [Nat.div_lt_iff_lt_mul (by norm_num : (0:Nat) < 10)]
        calc n < 10 ^ (f + 1) := h
        _ = 10 ^ f * 10 := pow_succ 10 f
      have hm : n % 10 < 10 := Nat.mod_lt _ (by omega)
      simp only [natToCharsAux, hn, if_false]
      rw [decodeDec_append_one, ih hd hf, charVal_digitChar hm]
      omega

theorem natToChars_eq_of_lt {n : Nat} (f : Nat) (h : n < 10 ^ f) (hp : 0 < f) :
    natToChars n = natToCharsAux f n := by
  have hn : n < 10 ^ (n + 1) := by
    calc n < 10 ^ n := Nat.lt_pow_self (by norm_num) n
    _ ≤ 10 ^ (n + 1) := Nat.pow_le_pow_right (by norm_num) (by omega)
  exact natToCharsAux_fuel hn h (by omega) hp

theorem natToChars_length_le_four {n : Nat} (h : n ≤ 9999) :
    (natToChars n).length ≤ 4 := by
  rw [natToChars_eq_of_lt 4 (by norm_num; omega) (by norm_num)]
  exact natToCharsAux_length (by norm_num; omega) (by norm_num)

theorem pad4_length {n : Nat} (h : n ≤ 9999) : (pad4 n).length = 4 := by
  have := natToChars_length_le_four h
  simp only [pad4, List.length_append, List.length_replicate]
  omega

theorem natToChars_digits (n : Nat) : (natToChars n).all isDigitChar = true :=
  natToCharsAux_digits

theorem all_replicate_zero_digit (k : Nat) :
    (List.replicate k '0').all isDigitChar = true := by
  induction k with
  | zero => rfl
  | succ k ih =>
    rw [List.replicate_succ, List.all_cons, ih]
    decide

theorem pad4_digits (n : Nat) : (pad4 n).all isDigitChar = true := by
  simp only [pad4, List.all_append, natToChars_digits, all_replicate_zero_digit]
  rfl

theorem decodeDec_replicate_zero (k : Nat) (s : Str) :
    decodeDec (List.replicate k '0' ++ s) = decodeDec s := by
  induction k with
  | zero => simp
  | succ k ih =>
    simp only [List.replicate_succ, List.cons_append]
    show decodeDec (List.replicate k '0' ++ s) = decodeDec s
    exact ih

theorem decodeDec_natToChars (n : Nat) : decodeDec (natToChars n) = n := by
  have hn : n < 10 ^ (n + 1) := by
    calc n < 10 ^ n := Nat.lt_pow_self (by norm_num) n
    _ ≤ 10 ^ (n + 1) := Nat.pow_le_pow_right (by norm_num) (by omega)
  exact decodeDec_natToCharsAux hn (by omega)

theorem decodeDec_pad4 (n : Nat) : decodeDec (pad4 n) = n := by
  simp only [pad4]
  rw [decodeDec_replicate_zero, decodeDec_natToChars]

theorem num4_eq_decodeDec {s : Str} (h : s.length = 4) : num4 s = decodeDec s := by
  match s, h with
  | [a, b, c, d], _ =>
    simp [num4, decodeDec]

theorem num4_pad4 {n : Nat} (h : n ≤ 9999) : num4 (pad4 n) = n := by
  rw [num4_eq_decodeDec (pad4_length h), decodeDec_pad4]

theorem pad4_injOn {i j : Nat} (hi : i ≤ 9999) (hj : j ≤ 9999)
    (h : pad4 i = pad4 j) : i = j := by
  have := num4_pad4 hi
  rw [h, num4_pad4 hj] at this
  omega

theorem ssnVal_injOn {i j : Nat} (hi : i ≤ 9999) (hj : j ≤ 9999)
    (h : ssnVal i = ssnVal j) : i = j := by
  apply pad4_injOn hi hj
  have := List.append_cancel_left h
  exact this

/-!  ### Helper lemmas about the matchers and the scan  -/

theorem expectLit_append (lab t : Str) : expectLit lab (lab ++ t) = some t := by
  induction lab with
  | nil => rfl
  | cons c cs ih => simp [expectLit, ih]

theorem expectCount_all {p : Char → Bool} {s : Str} (h : s.all p = true) (t : Str) :
    expectCount p s.length (s ++ t) = some (s, t) := by
  induction s with
  | nil => rfl
  | cons c cs ih =>
    simp only [List.all_cons, Bool.and_eq_true] at h
    simp [expectCount, h.1, ih h.2]

theorem digit_isWord {c : Char} (h : isDigitChar c = true) : isWordChar c = true := by
  simp only [isDigitChar, Bool.and_eq_true] at h
  simp [isWordChar, h.1, h.2]

theorem matchPlaceholder_ssn {d : Str} (hl : d.length = 4)
    (hd : d.all isDigitChar = true) :
    matchPlaceholder false ("SSN_".data ++ d) = some ("SSN_".data ++ d, []) := by
  have h1 : expectLit ['S', 'S', 'N', '_'] ('S' :: 'S' :: 'N' :: '_' :: d) = some d := by
    have := expectLit_append ['S', 'S', 'N', '_'] d
    simpa using this
  have h2 : expectCount isDigitChar 4 d = some (d, []) := by
    have := expectCount_all hd []
    rw [List.append_nil, hl] at this
    exact this
  simp [matchPlaceholder, h1, h2, wordAhead]

theorem matchPlaceholder_email {d : Str} (hl : d.length = 4)
    (hd : d.all isDigitChar = true) :
    matchPlaceholder false ("EMAIL_".data ++ d) = some ("EMAIL_".data ++ d, []) := by
  have h0 : expectLit ['S', 'S', 'N', '_']
      ('E' :: 'M' :: 'A' :: 'I' :: 'L' :: '_' :: d) = none := by
    simp [expectLit, show ('S' == 'E') = false from rfl]
  have h1 : expectLit ['E', 'M', 'A', 'I', 'L', '_']
      ('E' :: 'M' :: 'A' :: 'I' :: 'L' :: '_' :: d) = some d := by
    have := expectLit_append ['E', 'M', 'A', 'I', 'L', '_'] d
    simpa using this
  have h2 : expectCount isDigitChar 4 d = some (d, []) := by
    have := expectCount_all hd []
    rw [List.append_nil, hl] at this
    exact this
  simp [matchPlaceholder, h0, h1, h2, wordAhead]

theorem matchPlaceholder_phone {d : Str} (hl : d.length = 4)
    (hd : d.all isDigitChar = true) :
    matchPlaceholder false ("PHONE_NUMBER_".data ++ d)
      = some ("PHONE_NUMBER_".data ++ d, []) := by
  have h0 : expectLit ['S', 'S', 'N', '_']
      ('P' :: 'H' :: 'O' :: 'N' :: 'E' :: '_' :: 'N' :: 'U' :: 'M' :: 'B' :: 'E' :: 'R' :: '_' :: d)
      = none := by
    simp [expectLit, show ('S' == 'P') = false from rfl]
  have h0b : expectLit ['E', 'M', 'A', 'I', 'L', '_']
      ('P' :: 'H' :: 'O' :: 'N' :: 'E' :: '_' :: 'N' :: 'U' :: 'M' :: 'B' :: 'E' :: 'R' :: '_' :: d)
      = none := by
    simp [expectLit, show ('E' == 'P') = false from rfl]
  have h1 : expectLit ['P', 'H', 'O', 'N', 'E', '_', 'N', 'U', 'M', 'B', 'E', 'R', '_']
      ('P' :: 'H' :: 'O' :: 'N' :: 'E' :: '_' :: 'N' :: 'U' :: 'M' :: 'B' :: 'E' :: 'R' :: '_' :: d)
      = some d := by
    have := expectLit_append ['P', 'H', 'O', 'N', 'E', '_', 'N', 'U', 'M', 'B', 'E', 'R', '_'] d
    simpa using this
  have h2 : expectCount isDigitChar 4 d = some (d, []) := by
    have := expectCount_all hd []
    rw [List.append_nil, hl] at this
    exact this
  simp [matchPlaceholder, h0, h0b, h1, h2, wordAhead]

theorem mkPlaceholder_ssn (c : Nat) : mkPlaceholder .SSN c = "SSN_".data ++ pad4 c := rfl

theorem mkPlaceholder_email (c : Nat) :
    mkPlaceholder .EMAIL c = "EMAIL_".data ++ pad4 c := rfl

theorem mkPlaceholder_phone (c : Nat) :
    mkPlaceholder .PHONE_NUMBER c = "PHONE_NUMBER_".data ++ pad4 c := rfl

theorem grammar_small (lab : PIILabel) (c : Nat) (h9 : c ≤ 9999) :
    keyMatchesGrammar (mkPlaceholder lab c) = true ∧
    (mkPlaceholder lab c).length ≤ MAX_PH_LEN := by
  have hl := pad4_length h9
  have hd := pad4_digits c
  cases lab with
  | SSN =>
    rw [mkPlaceholder_ssn]
    have hm : matchPlaceholder false ('S' :: 'S' :: 'N' :: '_' :: pad4 c)
        = some ('S' :: 'S' :: 'N' :: '_' :: pad4 c, []) := by
      simpa using matchPlaceholder_ssn hl hd
    refine ⟨?_, ?_⟩
    · simp [keyMatchesGrammar, hm]
    · simp [List.length_append, hl, MAX_PH_LEN]
  | EMAIL =>
    rw [mkPlaceholder_email]
    have hm : matchPlaceholder false ('E' :: 'M' :: 'A' :: 'I' :: 'L' :: '_' :: pad4 c)
        = some ('E' :: 'M' :: 'A' :: 'I' :: 'L' :: '_' :: pad4 c, []) := by
      simpa using matchPlaceholder_email hl hd
    refine ⟨?_, ?_⟩
    · simp [keyMatchesGrammar, hm]
    · simp [List.length_append, hl, MAX_PH_LEN]
  | PHONE_NUMBER =>
    rw [mkPlaceholder_phone]
    have hm : matchPlaceholder false
        ('P' :: 'H' :: 'O' :: 'N' :: 'E' :: '_' :: 'N' :: 'U' :: 'M' :: 'B' :: 'E' :: 'R' :: '_' :: pad4 c)
        = some
          ('P' :: 'H' :: 'O' :: 'N' :: 'E' :: '_' :: 'N' :: 'U' :: 'M' :: 'B' :: 'E' :: 'R' :: '_' :: pad4 c,
           []) := by
      simpa using matchPlaceholder_phone hl hd
    refine ⟨?_, ?_⟩
    · simp [keyMatchesGrammar, hm]
    · simp [List.length_append, hl, MAX_PH_LEN]

theorem foldl_redactStep_keys (lab : PIILabel) (ms : List Str)
    (P : Str × Str → Prop)
    (hmint : ∀ (ctr : Nat) (v : Str), 1 ≤ ctr → P (mkPlaceholder lab ctr, v)) :
    ∀ st : RState, 1 ≤ st.counter → (∀ kv ∈ st.mapping, P kv) →
      1 ≤ (ms.foldl (redactStep lab) st).counter ∧
      ∀ kv ∈ (ms.foldl (redactStep lab) st).mapping, P kv := by
  induction ms with
  | nil => intro st h1 h2; exact ⟨h1, h2⟩
  | cons mt ms ih =>
    intro st h1 h2
    rw [List.foldl_cons]
    by_cases hv : mappingHasValue st.mapping mt
    · have : redactStep lab st mt = st := by simp [redactStep, hv]
      rw [this]
      exact ih st h1 h2
    · have hb : mappingHasValue st.mapping mt = false := by simpa using hv
      apply ih
      · simp [redactStep, hb]
      · intro kv hkv
        simp only [redactStep, hb, Bool.false_eq_true, if_false] at hkv
        rcases List.mem_append.mp hkv with h | h
        · exact h2 kv h
        · rcases List.mem_singleton.mp h with rfl
          exact hmint st.counter mt h1

theorem redactPass_keys (lab : PIILabel) (acc : Str × Mapping)
    (P : Str × Str → Prop)
    (hmint : ∀ (ctr : Nat) (v : Str), 1 ≤ ctr → P (mkPlaceholder lab ctr, v))
    (h : ∀ kv ∈ acc.2, P kv) :
    ∀ kv ∈ (redactPass lab acc).2, P kv :=
  (foldl_redactStep_keys lab _ P hmint ⟨acc.1, acc.2, 1⟩ (Nat.le_refl 1) h).2

theorem expectCount_pad4 {c : Nat} (h : c ≤ 9999) (t : Str) :
    expectCount isDigitChar 4 (pad4 c ++ t) = some (pad4 c, t) := by
  have := expectCount_all (pad4_digits c) t
  rw [pad4_length h] at this
  exact this

theorem ssnVal_cons (i : Nat) :
    ssnVal i = '0' :: '0' :: '0' :: '-' :: '0' :: '0' :: '-' :: pad4 i := rfl

theorem ssnVal_length {i : Nat} (hi : i ≤ 9999) : (ssnVal i).length = 11 := by
  rw [ssnVal_cons]
  simp [pad4_length hi]

theorem matchSSN_ssnVal {i : Nat} (hi : i ≤ 9999) {rest : Str}
    (hrest : wordAhead rest = false) :
    matchSSN false (ssnVal i ++ rest) = some (ssnVal i, rest) := by
  have h4 := expectCount_pad4 hi rest
  rw [ssnVal_cons]
  simp [matchSSN, expectCount, show isDigitChar '0' = true from rfl, h4, hrest]

theorem exists_four {s : Str} (h : s.length = 4) : ∃ a b c d, s = [a, b, c, d] := by
  cases s with
  | nil => simp at h
  | cons a s1 =>
    cases s1 with
    | nil => simp at h
    | cons b s2 =>
      cases s2 with
      | nil => simp at h
      | cons c s3 =>
        cases s3 with
        | nil => simp at h
        | cons d s4 =>
          cases s4 with
          | nil => exact ⟨a, b, c, d, rfl⟩
          | cons e s5 => simp at h

theorem lastCharWord_ssnVal {i : Nat} (hi : i ≤ 9999) (p : Bool) :
    lastCharWord (ssnVal i) p = true := by
  obtain ⟨a, b, c, d, he⟩ := exists_four (pad4_length hi)
  have hd : isDigitChar d = true := by
    have := pad4_digits i
    rw [he] at this
    simp [List.all_cons] at this
    exact this.2.2.2
  rw [ssnVal_cons, he]
  show isWordChar d = true
  exact digit_isWord hd

theorem findAllAux_nilcase (f : Matcher) (fuel : Nat) (p : Bool) :
    findAllAux f fuel p [] = [] := by cases fuel <;> rfl

theorem findAllAux_ssn_blocks :
    ∀ (l : List Nat), (∀ i ∈ l, i ≤ 9999) →
    ∀ fuel, (joinSp (l.map ssnVal)).length ≤ fuel →
    findAllAux matchSSN fuel false (joinSp (l.map ssnVal)) = l.map ssnVal := by
  intro l
  induction l with
  | nil =>
    intro _ fuel _
    simp [joinSp, findAllAux_nilcase]
  | cons i l ih =>
    intro hmem fuel hfuel
    have hi : i ≤ 9999 := hmem i (by simp)
    cases l with
    | nil =>
      simp only [List.map_cons, List.map_nil, joinSp] at hfuel ⊢
      have hlen : (ssnVal i).length = 11 := ssnVal_length hi
      obtain ⟨f, rfl⟩ : ∃ f, fuel = f + 1 := ⟨fuel - 1, by omega⟩
      have hm : matchSSN false (ssnVal i) = some (ssnVal i, []) := by
        have hm0 : matchSSN false (ssnVal i ++ []) = some (ssnVal i, []) :=
          matchSSN_ssnVal hi (by rfl)
        rwa [List.append_nil] at hm0
      rw [ssnVal_cons] at hm ⊢
      simp only [findAllAux, hm]
      simp [findAllAux_nilcase]
    | cons j l2 =>
      have hj : j ≤ 9999 := hmem j (by simp)
      simp only [List.map_cons, joinSp] at hfuel ⊢
      have hlen : (ssnVal i).length = 11 := ssnVal_length hi
      have hT : (ssnVal i ++ ' ' :: joinSp (ssnVal j :: List.map ssnVal l2)).length
          = 12 + (joinSp (ssnVal j :: List.map ssnVal l2)).length := by
        simp [List.length_append, hlen]
        omega
      obtain ⟨f, rfl⟩ : ∃ f, fuel = f + 1 := ⟨fuel - 1, by omega⟩
      have hm : matchSSN false
          (ssnVal i ++ ' ' :: joinSp (ssnVal j :: List.map ssnVal l2))
          = some (ssnVal i, ' ' :: joinSp (ssnVal j :: List.map ssnVal l2)) :=
        matchSSN_ssnVal hi (by rfl)
      have hlast := lastCharWord_ssnVal hi false
      rw [ssnVal_cons] at hm hlast ⊢
      simp only [List.cons_append] at hm ⊢
      simp only [findAllAux, hm, hlast]
      obtain ⟨f2, rfl⟩ : ∃ f2, f = f2 + 1 := ⟨f - 1, by omega⟩
      have hnone : matchSSN true
          (' ' :: joinSp (ssnVal j :: List.map ssnVal l2)) = none := by
        simp [matchSSN]
      simp only [findAllAux, hnone, show isWordChar ' ' = false from rfl]
      have := ih (fun x hx => hmem x (by simp [hx])) f2
        (by simp only [List.map_cons]; omega)
      simp only [List.map_cons] at this
      rw [this]

theorem ssnVal_ne {a b : Nat} (ha : a ≤ 9999) (hb : b ≤ 9999) (hne : a ≠ b) :
    ssnVal a ≠ ssnVal b := fun h => hne (ssnVal_injOn ha hb h)

theorem ssnMapUpTo_hasValue_false {n : Nat} (hn : n ≤ 9999) :
    mappingHasValue (ssnMapUpTo n) (ssnVal n) = false := by
  rw [mappingHasValue]
  rw [List.any_eq_false]
  intro kv hkv
  rw [ssnMapUpTo] at hkv
  obtain ⟨j, hj, rfl⟩ := List.mem_map.mp hkv
  have hjn : j < n := List.mem_range.mp hj
  simp only [beq_iff_eq]
  intro hEq
  have := ssnVal_injOn (show j ≤ 9999 by omega) hn hEq
  omega

theorem ssn_fold (n : Nat) (hn : n ≤ 10000) (start : Str) :
    ∃ mod, ((List.range n).map ssnVal).foldl (redactStep .SSN) ⟨start, [], 1⟩
      = ⟨mod, ssnMapUpTo n, n + 1⟩ := by
  induction n with
  | zero => exact ⟨start, rfl⟩
  | succ n ih =>
    obtain ⟨mod, hm⟩ := ih (by omega)
    rw [List.range_succ, List.map_append, List.foldl_append, hm]
    simp only [List.map_cons, List.map_nil, List.foldl_cons, List.foldl_nil]
    have hv : mappingHasValue (ssnMapUpTo n) (ssnVal n) = false :=
      ssnMapUpTo_hasValue_false (by omega)
    have hmap : ssnMapUpTo n ++ [(mkPlaceholder .SSN (n + 1), ssnVal n)]
        = ssnMapUpTo (n + 1) := by
      rw [ssnMapUpTo, ssnMapUpTo, List.range_succ, List.map_append]
      rfl
    refine ⟨replaceAllLit mod (ssnVal n) (mkPlaceholder .SSN (n + 1)), ?_⟩
    simp only [redactStep, hv, Bool.false_eq_true, if_false]
    rw [hmap]

theorem foldl_redactStep_mapping_extend (lab : PIILabel) (ms : List Str) :
    ∀ st : RState, ∃ ext, (ms.foldl (redactStep lab) st).mapping = st.mapping ++ ext := by
  induction ms with
  | nil => intro st; exact ⟨[], by simp⟩
  | cons mt ms ih =>
    intro st
    rw [List.foldl_cons]
    by_cases hv : mappingHasValue st.mapping mt
    · have : redactStep lab st mt = st := by simp [redactStep, hv]
      rw [this]
      exact ih st
    · have hb : mappingHasValue st.mapping mt = false := by simpa using hv
      obtain ⟨ext, he⟩ := ih (redactStep lab st mt)
      refine ⟨[(mkPlaceholder lab st.counter, mt)] ++ ext, ?_⟩
      rw [he]
      simp [redactStep, hb]

theorem redactPass_mapping_extend (lab : PIILabel) (acc : Str × Mapping) :
    ∃ ext, (redactPass lab acc).2 = acc.2 ++ ext :=
  foldl_redactStep_mapping_extend lab _ ⟨acc.1, acc.2, 1⟩

theorem redactPass_ssn_big :
    ∃ mod, redactPass .SSN (bigInput, []) = (mod, ssnMapUpTo 10000) := by
  have hfind : findAll matchSSN bigInput = (List.range 10000).map ssnVal := by
    rw [findAll, bigInput]
    exact findAllAux_ssn_blocks (List.range 10000)
      (fun x hx => by have := List.mem_range.mp hx; omega) _ (Nat.le_refl _)
  obtain ⟨mod, hm⟩ := ssn_fold 10000 (Nat.le_refl _) bigInput
  refine ⟨mod, ?_⟩
  simp only [redactPass]
  rw [show labelMatcher .SSN = matchSSN from rfl]
  rw [hfind, hm]

theorem redactText_mapping_eq (text : Str) :
    (redactText text).mapping
      = (redactPass .PHONE_NUMBER
          (redactPass .EMAIL (redactPass .SSN (text, [])))).2 := rfl

theorem streamStep_spec (m : Mapping) (buf inc : Str) :
    streamStep m buf inc =
      ((unredactOnce (buf ++ inc) m).take
        ((unredactOnce (buf ++ inc) m).length - (MAX_PH_LEN - 1)),
       (unredactOnce (buf ++ inc) m).drop
        ((unredactOnce (buf ++ inc) m).length - (MAX_PH_LEN - 1))) ∧
    (streamStep m buf inc).2.length ≤ MAX_PH_LEN - 1 := by
  by_cases h : MAX_PH_LEN - 1 < (unredactOnce (buf ++ inc) m).length
  · refine ⟨by simp [streamStep, h], ?_⟩
    simp [streamStep, h, List.length_drop]
    omega
  · have h0 : (unredactOnce (buf ++ inc) m).length - (MAX_PH_LEN - 1) = 0 := by
      simp [MAX_PH_LEN] at h ⊢; omega
    refine ⟨by simp [streamStep, h, h0], ?_⟩
    simp [streamStep, h]
    omega

theorem phPiecesAux_all_lit {fuel : Nat} {p : Bool} {s : Str} (m : Mapping)
    (hf : s.length ≤ fuel) (h : noPHAux fuel p s = true) :
    ((phPiecesAux fuel p s).map (renderPiece m)).flatten = s := by
  induction fuel generalizing p s with
  | zero =>
    cases s with
    | nil => rfl
    | cons c cs => simp at hf
  | succ fuel ih =>
    cases s with
    | nil => rfl
    | cons c cs =>
      rw [noPHAux] at h
      have hm : matchPlaceholder p (c :: cs) = none := by
        rcases hmm : matchPlaceholder p (c :: cs) with _ | r
        · rfl
        · rw [hmm] at h; simp at h
      have hrest : noPHAux fuel (isWordChar c) cs = true := by
        rw [hm] at h; simpa using h
      rw [phPiecesAux, hm]
      simp only [List.map_cons, List.flatten_cons, renderPiece]
      have hrec : ((phPiecesAux fuel (isWordChar c) cs).map (renderPiece m)).flatten = cs :=
        ih (by simpa using hf) hrest
      rw [hrec]
      rfl

theorem not_mem_values_of_hasValue_false {m : Mapping} {v : Str}
    (h : mappingHasValue m v = false) : v ∉ m.map Prod.snd := by
  intro hv
  obtain ⟨kv, hkv, hkv2⟩ := List.mem_map.mp hv
  have : m.any (fun kv => kv.2 == v) = true :=
    List.any_eq_true.mpr ⟨kv, hkv, by simp [hkv2]⟩
  rw [mappingHasValue] at h
  rw [h] at this
  exact Bool.false_ne_true this

theorem foldl_redactStep_values_nodup (lab : PIILabel) (ms : List Str) :
    ∀ st : RState, (st.mapping.map Prod.snd).Nodup →
      ((ms.foldl (redactStep lab) st).mapping.map Prod.snd).Nodup := by
  induction ms with
  | nil => intro st h; exact h
  | cons mt ms ih =>
    intro st h
    rw [List.foldl_cons]
    apply ih
    by_cases hv : mappingHasValue st.mapping mt
    · simp [redactStep, hv, h]
    · have hb : mappingHasValue st.mapping mt = false := by
        simpa using hv
      have hnm := not_mem_values_of_hasValue_false hb
      simp only [redactStep, hb, Bool.false_eq_true, if_false]
      rw [List.map_append]
      simp [List.nodup_append, h, hnm]

theorem redactPass_values_nodup (lab : PIILabel) (acc : Str × Mapping)
    (h : (acc.2.map Prod.snd).Nodup) :
    (((redactPass lab acc).2).map Prod.snd).Nodup :=
  foldl_redactStep_values_nodup lab _ ⟨acc.1, acc.2, 1⟩ h

/-!  ### The claims  -/

/-- C1: the claim says that for any fragment sequence with concatenation S,
feeding the fragments to a fresh session of `makeStreamUnredactor(mapping)`
followed by the forced final flush with the empty fragment emits, in total,
exactly `unredactOnce(S, mapping)`.  The code has no flush branch: the call
with the empty fragment still withholds the 16-character tail, so for the
single fragment "hello" (with the empty mapping) nothing is ever emitted,
while `unredactOnce("hello", {}) = "hello"`. -/
theorem c1_final_flush_strands_tail :
    (runStream [] ["hello".data, []]).1 = [] ∧
    unredactOnce "hello".data [] = "hello".data ∧
    (runStream [] ["hello".data, []]).1 ≠ unredactOnce "hello".data [] := by
  decide

/-- C2: the claim says that a placeholder token split across two fragments,
followed by the final flush, yields the mapping value exactly once in the
concatenated emitted output.  With mapping `{EMAIL_0001 ↦ a@b.com}` and the
token split at offset 5 the session replaces the token internally but the
restored value (7 characters, at most the 16-character tail) is never
emitted: the concatenated output is empty and contains the value zero
times. -/
theorem c2_split_token_value_never_emitted :
    (runStream [("EMAIL_0001".data, "a@b.com".data)]
        ["EMAIL".data, "_0001".data, []]).1 = [] ∧
    countOccur "a@b.com".data
      (runStream [("EMAIL_0001".data, "a@b.com".data)]
        ["EMAIL".data, "_0001".data, []]).1 ≠ 1 := by
  decide

/-- C3: the claim says `unredactOnce(redactText(T).redactedText,
redactText(T).mapping) = T` for every input T.  It fails when T itself
contains a placeholder-shaped token: on `"EMAIL_0001 a@b.com"` redaction
mints the colliding key `EMAIL_0001` for `a@b.com`, and restoration rewrites
both occurrences to `a@b.com`, giving `"a@b.com a@b.com" ≠ T`. -/
theorem c3_roundtrip_fails_on_placeholder_input :
    unredactOnce (redactText "EMAIL_0001 a@b.com".data).redactedText
        (redactText "EMAIL_0001 a@b.com".data).mapping
      = "a@b.com a@b.com".data ∧
    "a@b.com a@b.com".data ≠ "EMAIL_0001 a@b.com".data := by
  decide

/-- C4 (counterexample): the claim says every minted key has a 4-digit
zero-padded counter, matches `LABEL_\d{4}` and has length at most 17 — for
every input text.  `pad4` does not truncate: on an input containing 10000
pairwise distinct SSN-shaped values the 10000th minted key is `SSN_10000`,
which does not match the placeholder grammar. -/
theorem c4_counterexample_counter_overflow :
    (mkPlaceholder .SSN 10000, ssnVal 9999) ∈ (redactText bigInput).mapping ∧
    keyMatchesGrammar (mkPlaceholder .SSN 10000) = false := by
  constructor
  · obtain ⟨mod, h1⟩ := redactPass_ssn_big
    rw [redactText_mapping_eq, h1]
    obtain ⟨e1, h2⟩ := redactPass_mapping_extend .EMAIL (mod, ssnMapUpTo 10000)
    obtain ⟨e2, h3⟩ := redactPass_mapping_extend .PHONE_NUMBER
      (redactPass .EMAIL (mod, ssnMapUpTo 10000))
    rw [h3, h2]
    have hmem0 : (mkPlaceholder .SSN (9999 + 1), ssnVal 9999) ∈ ssnMapUpTo 10000 := by
      rw [ssnMapUpTo]
      exact List.mem_map.mpr ⟨9999, List.mem_range.mpr (by omega), rfl⟩
    rw [show (9999 : Nat) + 1 = 10000 from rfl] at hmem0
    simp only [List.mem_append]
    exact Or.inl (Or.inl hmem0)
  · decide

/-- C4 (amended): every key of the mapping returned by `redactText` has the
exact syntax `LABEL_<pad4 c>` with `LABEL` from the fixed catalog and a
counter `c ≥ 1`; whenever the counter stayed at or below 9999 (at most 9999
distinct values minted for that label), the key matches the placeholder
grammar `LABEL_\d{4}` and has length at most `MAX_PH_LEN = 17`. -/
theorem c4_amended_key_shape (text : Str) (kv : Str × Str)
    (h : kv ∈ (redactText text).mapping) :
    ∃ (lab : PIILabel) (c : Nat), 1 ≤ c ∧ kv.1 = mkPlaceholder lab c ∧
      (c ≤ 9999 → keyMatchesGrammar kv.1 = true ∧ kv.1.length ≤ MAX_PH_LEN) := by
  have hshape : KeyShapeProp kv := by
    have h0 : kv ∈ (redactPass .PHONE_NUMBER
        (redactPass .EMAIL (redactPass .SSN (text, [])))).2 := h
    refine redactPass_keys _ _ KeyShapeProp
      (fun ctr v hc => ⟨.PHONE_NUMBER, ctr, hc, rfl⟩) ?_ kv h0
    refine redactPass_keys _ _ KeyShapeProp
      (fun ctr v hc => ⟨.EMAIL, ctr, hc, rfl⟩) ?_
    refine redactPass_keys _ _ KeyShapeProp
      (fun ctr v hc => ⟨.SSN, ctr, hc, rfl⟩) ?_
    intro kv hkv
    simp at hkv
  obtain ⟨lab, c, h1, he⟩ := hshape
  refine ⟨lab, c, h1, he, fun h9 => ?_⟩
  rw [he]
  exact grammar_small lab c h9

/-- C4 (witness): the amended statement applied to the concrete run of
`redactText` on `"a@b.com"`, whose mapping holds the single entry
`EMAIL_0001 ↦ a@b.com`. -/
theorem c4_amended_key_shape_witness :
    ∃ (lab : PIILabel) (c : Nat), 1 ≤ c ∧
      ("EMAIL_0001".data, "a@b.com".data).1 = mkPlaceholder lab c ∧
      (c ≤ 9999 →
        keyMatchesGrammar ("EMAIL_0001".data, "a@b.com".data).1 = true ∧
        ("EMAIL_0001".data, "a@b.com".data).1.length ≤ MAX_PH_LEN) :=
  c4_amended_key_shape "a@b.com".data ("EMAIL_0001".data, "a@b.com".data)
    (by decide)

/-- C5: within one `redactText` call a distinct matched value maps to exactly
one placeholder (first-seen wins): the mapping never holds two entries with
the same value, and on `"a@b.com called a@b.com"` the result is a single
mapping entry whose placeholder appears twice in the redacted text. -/
theorem c5_value_dedup :
    (∀ text : Str, (((redactText text).mapping).map Prod.snd).Nodup) ∧
    redactText "a@b.com called a@b.com".data
      = ⟨"EMAIL_0001 called EMAIL_0001".data,
         [("EMAIL_0001".data, "a@b.com".data)]⟩ ∧
    countOccur "EMAIL_0001".data
      (redactText "a@b.com called a@b.com".data).redactedText = 2 := by
  refine ⟨?_, by decide, by decide⟩
  intro text
  show (((redactPass .PHONE_NUMBER
      (redactPass .EMAIL (redactPass .SSN (text, [])))).2).map Prod.snd).Nodup
  exact redactPass_values_nodup _ _
    (redactPass_values_nodup _ _
      (redactPass_values_nodup _ _ (by simp)))

/-- C6: `unredactOnce` substitutes `mapping[token]` for a token present in
the mapping and leaves a placeholder-shaped token that is absent from the
mapping as literal unchanged text, never failing: on
`"see EMAIL_0099 here"` the result is the surrounding text around
`mapping[EMAIL_0099] ?? "EMAIL_0099"` for every mapping, and with the empty
mapping the text comes back unchanged.  Substituted output is never
rescanned: the decomposition `phPieces` is computed once from the input
text, independently of the mapping. -/
theorem c6_unknown_token_left_literal :
    (∀ m : Mapping,
      unredactOnce "see EMAIL_0099 here".data m
        = "see ".data
            ++ (lookupMapping m "EMAIL_0099".data).getD "EMAIL_0099".data
            ++ " here".data) ∧
    unredactOnce "see EMAIL_0099 here".data [] = "see EMAIL_0099 here".data := by
  constructor
  · intro m
    have hp : phPieces "see EMAIL_0099 here".data
        = [.lit 's', .lit 'e', .lit 'e', .lit ' ', .tok "EMAIL_0099".data,
           .lit ' ', .lit 'h', .lit 'e', .lit 'r', .lit 'e'] := by decide
    rw [unredactOnce, hp]
    simp [renderPiece]
  · decide

/-- C7: restoration is the identity transform on text in which the
placeholder pattern has no match anywhere, for every mapping. -/
theorem c7_no_placeholder_identity (text : Str) (m : Mapping)
    (h : noPlaceholderMatch text = true) :
    unredactOnce text m = text :=
  phPiecesAux_all_lit m (Nat.le_refl _) h

/-- C7 (witness): the identity on the placeholder-free text `"abc"` with a
nonempty mapping. -/
theorem c7_no_placeholder_identity_witness :
    noPlaceholderMatch "abc".data = true ∧
    unredactOnce "abc".data [("SSN_0001".data, "x".data)] = "abc".data :=
  ⟨by decide,
   c7_no_placeholder_identity "abc".data [("SSN_0001".data, "x".data)] (by decide)⟩

/-- C8: `redactText` is a deterministic pure function of the input text.
The only mutable state the source could observe is the `lastIndex` cursor of
the shared `PII_PATTERNS` regex objects; the code clones each with
`new RegExp(..., "g")` (cursor reset to 0) before matching, so the result is
identical for any ambient regex state — in particular two calls on the same
text return the same redacted text and the same mapping. -/
theorem c8_redact_deterministic (st1 st2 : PIILabel → RegexObj) (text : Str) :
    redactTextFromState st1 text = redactTextFromState st2 text ∧
    redactTextFromState st1 text = redactText text := by
  constructor <;> rfl

/-- C9: on `"Contact 555-123-4567 or a@b.com, SSN 123-45-6789"` the mapping
has exactly the three entries `SSN_0001 ↦ 123-45-6789`,
`EMAIL_0001 ↦ a@b.com`, `PHONE_NUMBER_0001 ↦ 555-123-4567` (all counters 1),
and the redacted text contains none of the matched values and no at-sign. -/
theorem c9_concrete_scenario :
    redactText "Contact 555-123-4567 or a@b.com, SSN 123-45-6789".data
      = ⟨"Contact PHONE_NUMBER_0001 or EMAIL_0001, SSN SSN_0001".data,
         [("SSN_0001".data, "123-45-6789".data),
          ("EMAIL_0001".data, "a@b.com".data),
          ("PHONE_NUMBER_0001".data, "555-123-4567".data)]⟩ ∧
    occursIn "555-123-4567".data
      (redactText "Contact 555-123-4567 or a@b.com, SSN 123-45-6789".data).redactedText
      = false ∧
    occursIn "a@b.com".data
      (redactText "Contact 555-123-4567 or a@b.com, SSN 123-45-6789".data).redactedText
      = false ∧
    occursIn "123-45-6789".data
      (redactText "Contact 555-123-4567 or a@b.com, SSN 123-45-6789".data).redactedText
      = false ∧
    (redactText "Contact 555-123-4567 or a@b.com, SSN 123-45-6789".data).redactedText.all
      (fun c => !(c == '@')) = true := by
  decide

/-- C10: after any call of a streaming session (any mapping, any prior
fragment history, any incoming fragment including the empty one) the
retained buffer is at most `MAX_PH_LEN - 1 = 16` characters long, the call
emits exactly the replacement-processed buffer minus its last 16 characters,
and emits nothing when that processed buffer has at most 16 characters. -/
theorem c10_stream_tail_invariant (m : Mapping) (history : List Str) (inc : Str) :
    (streamStep m (runStream m history).2 inc).2.length ≤ MAX_PH_LEN - 1 ∧
    (streamStep m (runStream m history).2 inc).1
      = (unredactOnce ((runStream m history).2 ++ inc) m).take
          ((unredactOnce ((runStream m history).2 ++ inc) m).length
            - (MAX_PH_LEN - 1)) ∧
    ((unredactOnce ((runStream m history).2 ++ inc) m).length ≤ MAX_PH_LEN - 1 →
      (streamStep m (runStream m history).2 inc).1 = []) := by
  obtain ⟨h1, h2⟩ := streamStep_spec m (runStream m history).2 inc
  refine ⟨h2, ?_, ?_⟩
  · rw [h1]
  · intro hle
    rw [h1]
    have h0 : (unredactOnce ((runStream m history).2 ++ inc) m).length
        - (MAX_PH_LEN - 1) = 0 := by omega
    rw [h0]
    rfl

/-- C10 (witness): the invariant applied to the empty history, the fragment
`"hi"` and the empty mapping, whose 2-character processed buffer emits
nothing. -/
theorem c10_stream_tail_invariant_witness :
    (streamStep [] (runStream [] []).2 "hi".data).1 = [] :=
  (c10_stream_tail_invariant [] [] "hi".data).2.2 (by decide)

end CredalSpec
